import Mathlib

/-!
Verification of the scheduler, layout and verification components of the
`forge` orchestrator against its natural-language specification.

The Rust source is embedded shallowly:

* `src/features.rs` (task graph + scheduler): `FeatureStatus`, `FeatureType`,
  `Feature`, `FeatureList` and the operations `claim`, `markDone`,
  `markBlocked`, `reopen`, `nextClaimable`, `nextAfter`, `claimableIds`,
  `milestoneClaimable`.  The `&mut self` operations become functions
  `FeatureList → ... → FeatureList × Except FeatureError Unit`.
* `src/tui.rs`: `gridDims`, `gridRect` (pane layout) and
  `resizeToInner` (PTY resize debouncing).
* `src/verify.rs`: `verifyAll`, with script execution and file existence
  abstracted as function parameters.

Machine integers (`u32` priorities, `u16` rectangle coordinates) are
modelled as `Nat`: none of the embedded operations can overflow on
inputs that are representable in the original width, and no wrapping
arithmetic occurs in the embedded code paths.
-/

namespace Forge

/-- Status of a feature (`FeatureStatus` in src/features.rs). -/
inductive FeatureStatus where
  | Pending
  | Claimed
  | Done
  | Blocked
deriving DecidableEq, Repr

/-- Kind of a feature (`FeatureType` in src/features.rs). -/
inductive FeatureType where
  | Implement
  | Review
  | Poc
deriving DecidableEq, Repr

/-- One task record (`Feature` in src/features.rs).  `priority` is a `u32`
in the source (lower number = higher priority), modelled as `Nat`. -/
structure Feature where
  id : String
  feature_type : FeatureType
  scope : String
  description : String
  verify : String
  depends_on : List String
  priority : Nat
  status : FeatureStatus
  claimed_by : Option String
  blocked_reason : Option String
  context_hints : List String
deriving DecidableEq, Repr

/-- The persisted task list (`FeatureList` in src/features.rs). -/
structure FeatureList where
  features : List Feature
deriving DecidableEq, Repr

/-- Scheduler errors (`FeatureError` in src/features.rs).  The `Io` and
`Parse` cases concern file loading and are outside the embedded fragment. -/
inductive FeatureError where
  | NotFound (id : String)
  | AlreadyClaimed (id : String) (agent : String)
  | DepsNotMet (id : String) (unmet : List String)
deriving DecidableEq, Repr

/-- Ids of all features whose status is `Done` (the `done_ids` vector the
scheduler operations recompute at their start). -/
def listDoneIds (l : List Feature) : List String :=
  (l.filter fun f => f.status = FeatureStatus.Done).map (·.id)

/-- `done_ids` of a feature list. -/
def doneIds (fl : FeatureList) : List String :=
  listDoneIds fl.features

/-- `self.features.iter().find(|f| f.id == feature_id)`: the first feature
with the given id. -/
def findFeature (fl : FeatureList) (fid : String) : Option Feature :=
  fl.features.find? fun f => f.id = fid

/-- Update the first feature whose id matches, leaving the rest unchanged
(the effect of mutating through `iter_mut().find(..)`). -/
def updateFirst (fid : String) (g : Feature → Feature) : List Feature → List Feature
  | [] => []
  | f :: fs => if f.id = fid then g f :: fs else f :: updateFirst fid g fs

/-- `FeatureList::claim` (src/features.rs): fails with `NotFound` if no
feature has the id, `AlreadyClaimed` if `claimed_by` is set, `DepsNotMet`
with the unmet ids if some dependency is not done; otherwise sets status
`Claimed` and `claimed_by`.  Returned pair: the (possibly updated) list and
the call's result. -/
def claim (fl : FeatureList) (feature_id agent_id : String) :
    FeatureList × Except FeatureError Unit :=
  match findFeature fl feature_id with
  | none => (fl, .error (.NotFound feature_id))
  | some f =>
    match f.claimed_by with
    | some c => (fl, .error (.AlreadyClaimed feature_id c))
    | none =>
      if (f.depends_on.filter fun dep => dep ∉ doneIds fl).isEmpty then
        (⟨updateFirst feature_id
            (fun f => { f with status := .Claimed, claimed_by := some agent_id })
            fl.features⟩, .ok ())
      else
        (fl, .error (.DepsNotMet feature_id
          (f.depends_on.filter fun dep => dep ∉ doneIds fl)))

/-- `FeatureList::mark_done`: set the status of the first matching feature
to `Done`; `NotFound` for an unknown id. -/
def markDone (fl : FeatureList) (feature_id : String) :
    FeatureList × Except FeatureError Unit :=
  match findFeature fl feature_id with
  | none => (fl, .error (.NotFound feature_id))
  | some _ =>
    (⟨updateFirst feature_id (fun f => { f with status := .Done }) fl.features⟩, .ok ())

/-- `FeatureList::mark_blocked`: set status `Blocked` and the reason. -/
def markBlocked (fl : FeatureList) (feature_id reason : String) :
    FeatureList × Except FeatureError Unit :=
  match findFeature fl feature_id with
  | none => (fl, .error (.NotFound feature_id))
  | some _ =>
    (⟨updateFirst feature_id
        (fun f => { f with status := .Blocked, blocked_reason := some reason })
        fl.features⟩, .ok ())

/-- `FeatureList::reopen`: reset status to `Pending`, clear `claimed_by`
and `blocked_reason`. -/
def reopen (fl : FeatureList) (feature_id : String) :
    FeatureList × Except FeatureError Unit :=
  match findFeature fl feature_id with
  | none => (fl, .error (.NotFound feature_id))
  | some _ =>
    (⟨updateFirst feature_id
        (fun f => { f with status := .Pending, claimed_by := none,
                           blocked_reason := none })
        fl.features⟩, .ok ())

/-- Rust's `Iterator::min_by_key` on `priority`: the first element of the
list attaining the minimal priority, `none` on the empty list. -/
def minByPriority : List Feature → Option Feature
  | [] => none
  | f :: fs =>
    match minByPriority fs with
    | none => some f
    | some g => if g.priority < f.priority then some g else some f

/-- The claimability test used by `claim`-adjacent queries: status
`Pending` and every dependency in `done_ids`. -/
def claimableB (fl : FeatureList) (f : Feature) : Bool :=
  f.status = FeatureStatus.Pending &&
    f.depends_on.all fun dep => dep ∈ doneIds fl

/-- The claimable features in list order. -/
def claimableFeatures (fl : FeatureList) : List Feature :=
  fl.features.filter (claimableB fl)

/-- `FeatureList::next_claimable`: among pending features whose deps are
all done, the one with the lowest priority (first wins a tie). -/
def nextClaimable (fl : FeatureList) : Option Feature :=
  minByPriority
    ((fl.features.filter fun f => f.status = FeatureStatus.Pending).filter
      fun f => f.depends_on.all fun dep => dep ∈ doneIds fl)

/-- `FeatureList::next_after`: prefer claimable features that directly
depend on `completed_id`; fall back to global priority order. -/
def nextAfter (fl : FeatureList) (completed_id : String) : Option Feature :=
  match minByPriority
      ((fl.features.filter (claimableB fl)).filter
        fun f => f.depends_on.any fun dep => dep = completed_id) with
  | some f => some f
  | none => minByPriority (fl.features.filter (claimableB fl))

/-- `FeatureList::claimable_ids`: ids of all currently claimable features. -/
def claimableIds (fl : FeatureList) : List String :=
  (fl.features.filter (claimableB fl)).map (·.id)

end Forge

namespace Forge

/- A few concrete evaluations, mirroring the unit tests of
src/features.rs, to pin the embedding down on executable inputs. -/

/-- The `sample_features` fixture of the src/features.rs tests. -/
def sampleFeatures : FeatureList :=
  ⟨[{ id := "f001", feature_type := .Implement, scope := "data-model",
      description := "Create User struct", verify := "./scripts/verify/f001.sh",
      depends_on := [], priority := 1, status := .Pending,
      claimed_by := none, blocked_reason := none, context_hints := [] },
    { id := "f002", feature_type := .Implement, scope := "auth",
      description := "Add login endpoint", verify := "./scripts/verify/f002.sh",
      depends_on := ["f001"], priority := 2, status := .Pending,
      claimed_by := none, blocked_reason := none, context_hints := [] },
    { id := "f003", feature_type := .Review, scope := "data-model",
      description := "Review data-model boundaries", verify := "./scripts/verify/review-dm.sh",
      depends_on := ["f001"], priority := 3, status := .Pending,
      claimed_by := none, blocked_reason := none, context_hints := [] }]⟩

example : (nextClaimable sampleFeatures).map (·.id) = some "f001" := by decide

example : (claim sampleFeatures "f002" "agent-1").2 =
    .error (.DepsNotMet "f002" ["f001"]) := rfl

example : (claim sampleFeatures "f999" "agent-1").2 =
    .error (.NotFound "f999") := rfl

example :
    (nextClaimable (markDone (claim sampleFeatures "f001" "agent-1").1 "f001").1).map (·.id) =
      some "f002" := by decide

/-! ### Helper lemmas on `find?` and `updateFirst` -/

/-- A successful `find?` splits the list at the first satisfying element. -/
theorem find?_split {α} {p : α → Bool} {l : List α} {a : α} (h : l.find? p = some a) :
    ∃ pre post, l = pre ++ a :: post ∧ p a = true ∧ ∀ x ∈ pre, p x = false := by
  induction l with
  | nil => simp at h
  | cons b bs ih =>
    by_cases hpb : p b
    · refine ⟨[], bs, ?_, ?_, by simp⟩
      · simp [List.find?_cons_of_pos _ hpb] at h
        simp [h]
      · simp [List.find?_cons_of_pos _ hpb] at h
        simpa [h] using hpb
    · rw [List.find?_cons_of_neg _ (by simpa using hpb)] at h
      obtain ⟨pre, post, rfl, hpa, hpre⟩ := ih h
      exact ⟨b :: pre, post, rfl, hpa, by
        intro x hx
        rcases List.mem_cons.mp hx with rfl | hx
        · simpa using hpb
        · exact hpre x hx⟩

/-- `updateFirst` rewrites exactly the head of the first match. -/
theorem updateFirst_append {pre post : List Feature} {f : Feature} {fid : String}
    {g : Feature → Feature} (hpre : ∀ x ∈ pre, ¬ x.id = fid) (hf : f.id = fid) :
    updateFirst fid g (pre ++ f :: post) = pre ++ g f :: post := by
  induction pre with
  | nil => simp [updateFirst, hf]
  | cons b bs ih =>
    have hb : ¬ b.id = fid := hpre b (by simp)
    simp only [List.cons_append, updateFirst, if_neg hb, List.append_eq]
    exact congrArg (b :: ·) (ih fun x hx => hpre x (List.mem_cons_of_mem _ hx))

/-- Inversion of a successful `findFeature`. -/
theorem findFeature_split {fl : FeatureList} {fid : String} {f : Feature}
    (h : findFeature fl fid = some f) :
    ∃ pre post, fl.features = pre ++ f :: post ∧ f.id = fid ∧
      ∀ x ∈ pre, ¬ x.id = fid := by
  obtain ⟨pre, post, hl, hpa, hpre⟩ := find?_split h
  exact ⟨pre, post, hl, by simpa using hpa, fun x hx => by simpa using hpre x hx⟩

/-- `find?` over a list whose prefix fails the predicate. -/
theorem find?_append_cons {α} {p : α → Bool} {pre post : List α} {a : α}
    (hpre : ∀ x ∈ pre, p x = false) (ha : p a = true) :
    (pre ++ a :: post).find? p = some a := by
  induction pre with
  | nil => simp [List.find?_cons_of_pos _ ha]
  | cons b bs ih =>
    rw [List.cons_append, List.find?_cons_of_neg _ (by simp [hpre b (by simp)])]
    exact ih fun x hx => hpre x (List.mem_cons_of_mem _ hx)

/-- `findFeature` after `updateFirst` at the same id returns the rewritten
feature, provided the rewrite does not change the id. -/
theorem findFeature_updateFirst_self {fl : FeatureList} {fid : String} {f : Feature}
    {g : Feature → Feature} (h : findFeature fl fid = some f) (hg : (g f).id = f.id) :
    findFeature ⟨updateFirst fid g fl.features⟩ fid = some (g f) := by
  obtain ⟨pre, post, hl, hid, hpre⟩ := findFeature_split h
  show (updateFirst fid g fl.features).find? _ = some (g f)
  rw [hl, updateFirst_append hpre hid]
  exact find?_append_cons (fun x hx => by simpa using hpre x hx)
    (by simp [hg, hid])

/-- Inversion of a successful `claim`: what must have held before, and the
exact shape of the updated list. -/
theorem claim_ok_inv {fl fl' : FeatureList} {tid w : String}
    (h : claim fl tid w = (fl', .ok ())) :
    ∃ f, findFeature fl tid = some f ∧ f.claimed_by = none ∧
      (∀ d ∈ f.depends_on, d ∈ doneIds fl) ∧
      fl' = ⟨updateFirst tid
        (fun x => { x with status := .Claimed, claimed_by := some w })
        fl.features⟩ := by
  unfold claim at h
  split at h
  · exact absurd (congrArg Prod.snd h) (by simp)
  · rename_i f hf
    split at h
    · exact absurd (congrArg Prod.snd h) (by simp)
    · rename_i hc
      split at h
      · rename_i hu
        refine ⟨f, hf, hc, ?_, (congrArg Prod.fst h).symm⟩
        intro d hd
        by_contra hdn
        have hmem : d ∈ f.depends_on.filter fun dep => dep ∉ doneIds fl :=
          List.mem_filter.mpr ⟨hd, by simpa using hdn⟩
        rw [List.isEmpty_iff] at hu
        rw [hu] at hmem
        simp at hmem
      · exact absurd (congrArg Prod.snd h) (by simp)

/-- If the preconditions of `claim` hold, the call succeeds. -/
theorem claim_ok_of {fl : FeatureList} {tid w : String} {f : Feature}
    (hf : findFeature fl tid = some f) (hc : f.claimed_by = none)
    (hd : ∀ d ∈ f.depends_on, d ∈ doneIds fl) :
    claim fl tid w = (⟨updateFirst tid
      (fun x => { x with status := .Claimed, claimed_by := some w })
      fl.features⟩, .ok ()) := by
  have hu : (f.depends_on.filter fun dep => dep ∉ doneIds fl) = [] :=
    List.filter_eq_nil_iff.mpr fun d hd' => by simpa using hd d hd'
  simp [claim, hf, hc, hu]
  exact fun x hx => hd x hx

/-- A pair whose second component is known. -/
theorem pair_of_snd {α β : Type} {p : α × β} {b : β} (h : p.2 = b) : p = (p.1, b) := by
  cases p
  cases h
  rfl

/-- `markDone` succeeds on any present id and only rewrites the status. -/
theorem markDone_ok_of {fl : FeatureList} {tid : String} {f : Feature}
    (hf : findFeature fl tid = some f) :
    markDone fl tid =
      (⟨updateFirst tid (fun x => { x with status := .Done }) fl.features⟩, .ok ()) := by
  simp [markDone, hf]

/-- `markBlocked` succeeds on any present id. -/
theorem markBlocked_ok_of {fl : FeatureList} {tid reason : String} {f : Feature}
    (hf : findFeature fl tid = some f) :
    markBlocked fl tid reason =
      (⟨updateFirst tid
        (fun x => { x with status := .Blocked, blocked_reason := some reason })
        fl.features⟩, .ok ()) := by
  simp [markBlocked, hf]

/-- `reopen` succeeds on any present id. -/
theorem reopen_ok_of {fl : FeatureList} {tid : String} {f : Feature}
    (hf : findFeature fl tid = some f) :
    reopen fl tid =
      (⟨updateFirst tid
        (fun x => { x with status := .Pending, claimed_by := none,
                           blocked_reason := none })
        fl.features⟩, .ok ()) := by
  simp [reopen, hf]

/-- A failed `claim` leaves the list untouched. -/
theorem claim_error_eq {fl fl' : FeatureList} {tid w : String} {e : FeatureError}
    (h : claim fl tid w = (fl', .error e)) : fl' = fl := by
  unfold claim at h
  split at h
  · exact (congrArg Prod.fst h).symm
  · split at h
    · exact (congrArg Prod.fst h).symm
    · split at h
      · exact absurd (congrArg Prod.snd h) (by simp)
      · exact (congrArg Prod.fst h).symm

/-- The status of the (first) feature with a given id. -/
def statusOf (fl : FeatureList) (fid : String) : Option FeatureStatus :=
  (findFeature fl fid).map (·.status)

/-! ### C1: success condition of `claim` -/

/-- A list with a single feature whose status is `Done` and whose
`claimed_by` is unset: `claim` succeeds on it although it is not pending. -/
def exDoneOnly : FeatureList :=
  ⟨[{ id := "a", feature_type := .Implement, scope := "s", description := "d",
      verify := "v", depends_on := [], priority := 1, status := .Done,
      claimed_by := none, blocked_reason := none, context_hints := [] }]⟩

/-- C1 counterexample: it is not true that `claim(t, w)` succeeds only if
`t`'s status is `Pending`: on `exDoneOnly`, claiming the `Done` (but
unclaimed) feature `"a"` succeeds. -/
theorem claim_C1_counterexample :
    ¬ (∀ (fl : FeatureList) (t wk : String),
        (claim fl t wk).2 = .ok () ↔
          statusOf fl t = some FeatureStatus.Pending ∧
          ∀ f, findFeature fl t = some f → ∀ d ∈ f.depends_on, d ∈ doneIds fl) := by
  intro h
  have h2 := (h exDoneOnly "a" "w").mp rfl
  have hs : statusOf exDoneOnly "a" = some FeatureStatus.Done := rfl
  rw [hs] at h2
  exact absurd h2.1 (by simp)

/-- C1 (amended): `claim(t, w)` succeeds iff a feature with id `t` exists,
the first such feature has `claimed_by` unset, and every one of its
dependencies has status `Done`; after a successful claim that feature's
status is `Claimed` and its `claimed_by` is `w`. -/
theorem claim_success_spec (fl : FeatureList) (tid w : String) :
    ((claim fl tid w).2 = .ok () ↔
      ∃ f, findFeature fl tid = some f ∧ f.claimed_by = none ∧
        ∀ d ∈ f.depends_on, d ∈ doneIds fl) ∧
    (∀ f, findFeature fl tid = some f → (claim fl tid w).2 = .ok () →
      findFeature (claim fl tid w).1 tid =
        some { f with status := .Claimed, claimed_by := some w }) := by
  constructor
  · constructor
    · intro h
      obtain ⟨f, hf, hc, hd, _⟩ := claim_ok_inv (pair_of_snd h)
      exact ⟨f, hf, hc, hd⟩
    · rintro ⟨f, hf, hc, hd⟩
      rw [claim_ok_of hf hc hd]
  · intro f hf hok
    obtain ⟨f₀, hf₀, hc₀, hd₀, hfl'⟩ := claim_ok_inv (pair_of_snd hok)
    rw [hf] at hf₀
    injection hf₀ with hff
    subst hff
    rw [hfl']
    exact findFeature_updateFirst_self hf rfl

/-! ### C8: claim; mark_done; reopen round trip -/

/-- C8: after a successful `claim(t, w)`, `mark_done(t)` and `reopen(t)`
both succeed and the resulting feature `t` has status `Pending`, no
`claimed_by` and no `blocked_reason`. -/
theorem claim_markDone_reopen_roundtrip (fl fl₁ : FeatureList) (tid w : String)
    (h : claim fl tid w = (fl₁, .ok ())) :
    (markDone fl₁ tid).2 = .ok () ∧
    (reopen (markDone fl₁ tid).1 tid).2 = .ok () ∧
    ∃ f, findFeature (reopen (markDone fl₁ tid).1 tid).1 tid = some f ∧
      f.status = .Pending ∧ f.claimed_by = none ∧ f.blocked_reason = none := by
  obtain ⟨f₀, hf₀, hc₀, hd₀, hfl₁⟩ := claim_ok_inv h
  subst hfl₁
  have h1 := findFeature_updateFirst_self
    (g := fun x => { x with status := .Claimed, claimed_by := some w }) hf₀ rfl
  rw [markDone_ok_of h1]
  have h2 := findFeature_updateFirst_self
    (g := fun x => { x with status := .Done }) h1 rfl
  rw [reopen_ok_of h2]
  exact ⟨rfl, rfl, _, findFeature_updateFirst_self h2 rfl, rfl, rfl, rfl⟩

/-- C8 witness: the round trip at the concrete fixture list. -/
theorem claim_markDone_reopen_roundtrip_witness :
    (markDone (claim sampleFeatures "f001" "agent-1").1 "f001").2 = .ok () ∧
    (reopen (markDone (claim sampleFeatures "f001" "agent-1").1 "f001").1 "f001").2 = .ok () ∧
    ∃ f, findFeature
        (reopen (markDone (claim sampleFeatures "f001" "agent-1").1 "f001").1 "f001").1
        "f001" = some f ∧
      f.status = .Pending ∧ f.claimed_by = none ∧ f.blocked_reason = none :=
  claim_markDone_reopen_roundtrip sampleFeatures
    ((claim sampleFeatures "f001" "agent-1").1) "f001" "agent-1" rfl

/-! ### C10: a failed claim changes nothing -/

/-- C10: whenever `claim` returns an error, the feature list is left
completely unchanged. -/
theorem claim_error_frame (fl : FeatureList) (tid w : String)
    (e : FeatureError) (h : (claim fl tid w).2 = .error e) :
    (claim fl tid w).1 = fl :=
  claim_error_eq (pair_of_snd h)

/-- C10 witness: the failed claim of `"f002"` (unmet dependency) leaves the
fixture list unchanged. -/
theorem claim_error_frame_witness :
    (claim sampleFeatures "f002" "agent-1").1 = sampleFeatures :=
  claim_error_frame sampleFeatures "f002" "agent-1"
    (.DepsNotMet "f002" ["f001"]) rfl

/-! ### `min_by_key` facts -/

/-- `minByPriority` returns `none` exactly on the empty list. -/
theorem minByPriority_eq_none {l : List Feature} :
    minByPriority l = none ↔ l = [] := by
  cases l with
  | nil => simp [minByPriority]
  | cons f fs =>
    rw [minByPriority]
    constructor
    · intro h
      split at h
      · exact Option.noConfusion h
      · split at h <;> exact Option.noConfusion h
    · intro h
      exact List.noConfusion h

/-- The element returned by `minByPriority` has minimal priority and is the
earliest element attaining it: everything before it is strictly larger. -/
theorem minByPriority_spec {l : List Feature} {t : Feature}
    (h : minByPriority l = some t) :
    (∀ u ∈ l, t.priority ≤ u.priority) ∧
    ∃ pre post, l = pre ++ t :: post ∧ ∀ u ∈ pre, t.priority < u.priority := by
  induction l generalizing t with
  | nil => simp [minByPriority] at h
  | cons f fs ih =>
    rw [minByPriority] at h
    split at h
    · rename_i hm
      injection h with h
      subst h
      have hfs : fs = [] := minByPriority_eq_none.mp hm
      subst hfs
      exact ⟨by simp, [], [], rfl, by simp⟩
    · rename_i g hm
      split at h
      · rename_i hlt
        injection h with h
        subst h
        obtain ⟨hmin, pre, post, hsplit, hpre⟩ := ih hm
        refine ⟨?_, f :: pre, post, by rw [hsplit, List.cons_append], ?_⟩
        · intro u hu
          rcases List.mem_cons.mp hu with rfl | hu
          · exact le_of_lt hlt
          · exact hmin u hu
        · intro u hu
          rcases List.mem_cons.mp hu with rfl | hu
          · exact hlt
          · exact hpre u hu
      · rename_i hlt
        injection h with h
        subst h
        obtain ⟨hmin, _⟩ := ih hm
        refine ⟨?_, [], fs, rfl, by simp⟩
        intro u hu
        rcases List.mem_cons.mp hu with rfl | hu
        · exact le_refl _
        · exact le_trans (not_lt.mp hlt) (hmin u hu)

/-- The claimability test, unfolded. -/
theorem claimableB_iff {fl : FeatureList} {f : Feature} :
    claimableB fl f = true ↔
      f.status = .Pending ∧ ∀ d ∈ f.depends_on, d ∈ doneIds fl := by
  simp [claimableB]

/-- `next_claimable` is `min_by_key` over the claimable features. -/
theorem nextClaimable_eq (fl : FeatureList) :
    nextClaimable fl = minByPriority (claimableFeatures fl) := by
  unfold nextClaimable claimableFeatures claimableB
  rw [List.filter_filter]
  apply congrArg
  apply List.filter_congr
  intro a _
  exact Bool.and_comm _ _

/-! ### C3: `next_claimable` -/

/-- C3: `next_claimable` returns `none` exactly when no task is claimable;
a returned task is pending in the list with all dependencies done, has the
lowest priority among claimable tasks, and is the earliest claimable task
attaining that priority (insertion-order tie break). -/
theorem nextClaimable_spec (fl : FeatureList) :
    (nextClaimable fl = none ↔ claimableFeatures fl = []) ∧
    ∀ t, nextClaimable fl = some t →
      t ∈ fl.features ∧ t.status = .Pending ∧
      (∀ d ∈ t.depends_on, d ∈ doneIds fl) ∧
      (∀ u ∈ claimableFeatures fl, t.priority ≤ u.priority) ∧
      ∃ pre post, claimableFeatures fl = pre ++ t :: post ∧
        ∀ u ∈ pre, t.priority < u.priority := by
  rw [nextClaimable_eq]
  refine ⟨minByPriority_eq_none, ?_⟩
  intro t h
  obtain ⟨hmin, pre, post, hsplit, hpre⟩ := minByPriority_spec h
  have hmem : t ∈ claimableFeatures fl := by
    rw [hsplit]
    exact List.mem_append_right _ (List.mem_cons_self _ _)
  have hcb := List.mem_filter.mp hmem
  obtain ⟨hp, hd⟩ := claimableB_iff.mp hcb.2
  exact ⟨hcb.1, hp, hd, hmin, pre, post, hsplit, hpre⟩

/-! ### C4: `next_after` -/

/-- C4: if some claimable task directly depends on `completed_id`,
`next_after` returns one such task of minimal priority among them;
otherwise it returns exactly `next_claimable()`. -/
theorem nextAfter_spec (fl : FeatureList) (cid : String) :
    ((¬ ∃ u ∈ claimableFeatures fl, cid ∈ u.depends_on) →
      nextAfter fl cid = nextClaimable fl) ∧
    ((∃ u ∈ claimableFeatures fl, cid ∈ u.depends_on) →
      ∃ t, nextAfter fl cid = some t ∧ t ∈ claimableFeatures fl ∧
        cid ∈ t.depends_on ∧
        ∀ u ∈ claimableFeatures fl, cid ∈ u.depends_on →
          t.priority ≤ u.priority) := by
  have hdl : ∀ u, u ∈ (claimableFeatures fl).filter
      (fun f => f.depends_on.any fun dep => dep = cid) ↔
      u ∈ claimableFeatures fl ∧ cid ∈ u.depends_on := by
    intro u
    rw [List.mem_filter]
    constructor
    · rintro ⟨h1, h2⟩
      refine ⟨h1, ?_⟩
      simp only [List.any_eq_true, decide_eq_true_eq] at h2
      obtain ⟨d, hd, rfl⟩ := h2
      exact hd
    · rintro ⟨h1, h2⟩
      refine ⟨h1, ?_⟩
      simp only [List.any_eq_true, decide_eq_true_eq]
      exact ⟨cid, h2, rfl⟩
  constructor
  · intro hno
    have hnil : (claimableFeatures fl).filter
        (fun f => f.depends_on.any fun dep => dep = cid) = [] := by
      rw [List.eq_nil_iff_forall_not_mem]
      intro u hu
      exact hno ⟨u, (hdl u).mp hu⟩
    unfold nextAfter
    rw [show (fl.features.filter (claimableB fl)) = claimableFeatures fl from rfl,
      hnil]
    show minByPriority (claimableFeatures fl) = nextClaimable fl
    rw [nextClaimable_eq]
  · rintro ⟨u, hu, hcid⟩
    have hne : (claimableFeatures fl).filter
        (fun f => f.depends_on.any fun dep => dep = cid) ≠ [] := by
      intro hnil
      have := (hdl u).mpr ⟨hu, hcid⟩
      rw [hnil] at this
      simp at this
    cases hm : minByPriority ((claimableFeatures fl).filter
        (fun f => f.depends_on.any fun dep => dep = cid)) with
    | none => exact absurd (minByPriority_eq_none.mp hm) hne
    | some t =>
      obtain ⟨hmin, pre, post, hsplit, _⟩ := minByPriority_spec hm
      have hmem : t ∈ (claimableFeatures fl).filter
          (fun f => f.depends_on.any fun dep => dep = cid) := by
        rw [hsplit]
        exact List.mem_append_right _ (List.mem_cons_self _ _)
      obtain ⟨htc, htd⟩ := (hdl t).mp hmem
      refine ⟨t, ?_, htc, htd, ?_⟩
      · unfold nextAfter
        rw [show (fl.features.filter (claimableB fl)) = claimableFeatures fl from rfl,
          hm]
      · intro v hv hvd
        exact hmin v ((hdl v).mpr ⟨hv, hvd⟩)

/-! ### C2: the data-model invariant -/

/-- The spec's data-model invariant: a task may be `Claimed` or `Done` only
if all its dependencies are `Done`, and `claimed_by` is set iff the status
is `Claimed`. -/
def Inv (fl : FeatureList) : Prop :=
  ∀ f ∈ fl.features,
    ((f.status = .Claimed ∨ f.status = .Done) → ∀ d ∈ f.depends_on, d ∈ doneIds fl) ∧
    (f.claimed_by.isSome ↔ f.status = .Claimed)

/-- `listDoneIds` ignores a replaced element as long as it is not `Done`
before or after. -/
theorem listDoneIds_replace {pre post : List Feature} {f f' : Feature}
    (hf : ¬ f.status = .Done) (hf' : ¬ f'.status = .Done) :
    listDoneIds (pre ++ f' :: post) = listDoneIds (pre ++ f :: post) := by
  simp [listDoneIds, List.filter_append, List.filter_cons, hf, hf']

/-- A single `Claimed` feature holding its `claimed_by`: the invariant
holds, but `mark_done` and `mark_blocked` break it (they do not clear
`claimed_by`). -/
def exClaimed : FeatureList :=
  ⟨[{ id := "a", feature_type := .Implement, scope := "s", description := "d",
      verify := "v", depends_on := [], priority := 1, status := .Claimed,
      claimed_by := some "w", blocked_reason := none, context_hints := [] }]⟩

/-- A `Done` feature with an unset `claimed_by` and a `Claimed` feature
depending on it: `reopen "a"` (and also `claim "a"`) breaks the invariant
of `"b"`. -/
def exDoneDep : FeatureList :=
  ⟨[{ id := "a", feature_type := .Implement, scope := "s", description := "d",
      verify := "v", depends_on := [], priority := 1, status := .Done,
      claimed_by := none, blocked_reason := none, context_hints := [] },
    { id := "b", feature_type := .Implement, scope := "s", description := "d",
      verify := "v", depends_on := ["a"], priority := 2, status := .Claimed,
      claimed_by := some "w", blocked_reason := none, context_hints := [] }]⟩

/-- C2 counterexample: the scheduler mutations do not all preserve the
invariant: `mark_done` on the claimed feature of `exClaimed` leaves
`claimed_by` set on a `Done` feature. -/
theorem invariant_C2_counterexample :
    ¬ (∀ (fl : FeatureList) (tid : String), Inv fl → Inv (markDone fl tid).1) := by
  intro h
  have h1 : Inv exClaimed := by
    unfold Inv
    decide
  have h2 := h exClaimed "a" h1
  have h3 : ¬ Inv (markDone exClaimed "a").1 := by
    unfold Inv
    decide
  exact h3 h2

/-- C2 (amended): a `claim` call — successful or failed — preserves the
invariant provided the feature it claims does not currently have status
`Done`; `mark_done`, `mark_blocked` and `reopen` do not preserve the
invariant in general, and neither does `claim` of a `Done` feature. -/
theorem invariant_preservation_spec :
    (∀ (fl : FeatureList) (tid w : String), Inv fl →
      (∀ f, findFeature fl tid = some f → ¬ f.status = .Done) →
      Inv (claim fl tid w).1) ∧
    (Inv exClaimed ∧ (markDone exClaimed "a").2 = .ok () ∧
      ¬ Inv (markDone exClaimed "a").1) ∧
    (Inv exClaimed ∧ (markBlocked exClaimed "a" "stuck").2 = .ok () ∧
      ¬ Inv (markBlocked exClaimed "a" "stuck").1) ∧
    (Inv exDoneDep ∧ (reopen exDoneDep "a").2 = .ok () ∧
      ¬ Inv (reopen exDoneDep "a").1) ∧
    (Inv exDoneDep ∧ (claim exDoneDep "a" "w2").2 = .ok () ∧
      ¬ Inv (claim exDoneDep "a" "w2").1) := by
  refine ⟨?_, ⟨by unfold Inv; decide, rfl, by unfold Inv; decide⟩,
    ⟨by unfold Inv; decide, rfl, by unfold Inv; decide⟩,
    ⟨by unfold Inv; decide, rfl, by unfold Inv; decide⟩,
    ⟨by unfold Inv; decide, rfl, by unfold Inv; decide⟩⟩
  intro fl tid w hInv hnd
  cases h2 : (claim fl tid w).2 with
  | error e =>
    rw [claim_error_eq (pair_of_snd h2)]
    exact hInv
  | ok u =>
    cases u
    obtain ⟨f₀, hf₀, hc₀, hd₀, hfl'⟩ := claim_ok_inv (pair_of_snd h2)
    obtain ⟨pre, post, hsplit, hid, hpre⟩ := findFeature_split hf₀
    have hnd₀ : ¬ f₀.status = .Done := hnd f₀ hf₀
    have hup : updateFirst tid
        (fun x => { x with status := .Claimed, claimed_by := some w }) fl.features =
        pre ++ { f₀ with status := .Claimed, claimed_by := some w } :: post := by
      rw [hsplit]
      exact updateFirst_append hpre hid
    have hdone : doneIds (claim fl tid w).1 = doneIds fl := by
      rw [hfl']
      show listDoneIds _ = _
      rw [hup, listDoneIds_replace hnd₀ (by simp)]
      rw [← hsplit]
      rfl
    intro g hg
    rw [hfl'] at hg
    replace hg : g ∈ pre ++ { f₀ with status := .Claimed, claimed_by := some w } :: post := by
      rw [← hup]
      exact hg
    rw [hdone]
    rcases List.mem_append.mp hg with hgpre | hgcons
    · exact hInv g (by rw [hsplit]; exact List.mem_append_left _ hgpre)
    · rcases List.mem_cons.mp hgcons with rfl | hgpost
      · exact ⟨fun _ => hd₀, by simp⟩
      · exact hInv g (by
          rw [hsplit]
          exact List.mem_append_right _ (List.mem_cons_of_mem _ hgpost))

/-! ### C7: PTY pane resize (src/tui.rs `PtyPane::resize_to_inner`) -/

/-- `ratatui`'s `Rect` (fields are `u16` in the source), modelled with
`Nat`; the embedded layout arithmetic never wraps for in-range inputs. -/
structure Rect where
  x : Nat
  y : Nat
  width : Nat
  height : Nat
deriving DecidableEq, Repr

/-- Modelled from the spec: the screen buffer of the external `vt100`
terminal-state parser (the repository only calls it; it is not part of the
source).  Per the spec, `set_size` "updates the parser's screen buffer
size" and previously rendered content "remains present in the buffer", so
the buffer is a size plus an abstract content component that `set_size`
does not touch. -/
structure ParserScreen where
  rows : Nat
  cols : Nat
  content : List String
deriving DecidableEq, Repr

/-- Modelled from the spec: `screen_mut().set_size(rows, cols)` of the
external parser. -/
def ParserScreen.setSize (s : ParserScreen) (rows cols : Nat) : ParserScreen :=
  { s with rows := rows, cols := cols }

/-- The state of one PTY pane that `resize_to_inner` touches: the parser
screen, the recorded `last_size` (rows, cols), and the OS-level window
size installed on the master descriptor by `set_terminal_size` (an
`ioctl`, modelled as a state component). -/
structure PtyPaneSt where
  screen : ParserScreen
  lastSize : Nat × Nat
  osWinSize : Nat × Nat
deriving DecidableEq, Repr

/-- `PtyPane::resize_to_inner` (src/tui.rs): returns unchanged if the new
(rows, cols) equal `last_size` or either dimension is zero; otherwise
records the new size, resizes the parser screen and issues the OS
window-size update. -/
def resizeToInner (st : PtyPaneSt) (inner : Rect) : PtyPaneSt :=
  if (inner.height, inner.width) = st.lastSize ∨ inner.width = 0 ∨ inner.height = 0 then
    st
  else
    { st with
      lastSize := (inner.height, inner.width),
      screen := st.screen.setSize inner.height inner.width,
      osWinSize := (inner.height, inner.width) }

/-- A concrete pane: 24×80 screen with some rendered content. -/
def pane0 : PtyPaneSt :=
  { screen := { rows := 24, cols := 80, content := ["hello"] },
    lastSize := (24, 80), osWinSize := (24, 80) }

/-- C7 counterexample: a *genuinely different* size does not always update
the parser: resizing `pane0` to width 0, height 10 — a size different from
the last applied (24, 80) — is silently ignored. -/
theorem resize_C7_counterexample :
    ¬ (∀ (st : PtyPaneSt) (inner : Rect),
        (inner.height, inner.width) ≠ st.lastSize →
        (resizeToInner st inner).screen.rows = inner.height ∧
        (resizeToInner st inner).screen.cols = inner.width ∧
        (resizeToInner st inner).lastSize = (inner.height, inner.width)) := by
  intro h
  have h2 := h pane0 ⟨0, 0, 0, 10⟩ (by decide)
  exact absurd h2.1 (by decide)

/-- C7 (amended): resizing to the last applied size — or to a size with a
zero dimension — is a complete no-op (parser buffer size, recorded last
size and OS window-size state all unchanged); resizing to a genuinely
different size with positive width and height updates the parser's buffer
size, the recorded last size and the OS state, while the previously
rendered buffer content remains present. -/
theorem resizeToInner_spec (st : PtyPaneSt) (inner : Rect) :
    ((inner.height, inner.width) = st.lastSize ∨ inner.width = 0 ∨ inner.height = 0 →
      resizeToInner st inner = st) ∧
    ((inner.height, inner.width) ≠ st.lastSize → inner.width ≠ 0 → inner.height ≠ 0 →
      (resizeToInner st inner).screen.rows = inner.height ∧
      (resizeToInner st inner).screen.cols = inner.width ∧
      (resizeToInner st inner).lastSize = (inner.height, inner.width) ∧
      (resizeToInner st inner).osWinSize = (inner.height, inner.width) ∧
      (resizeToInner st inner).screen.content = st.screen.content) := by
  constructor
  · intro hc
    simp [resizeToInner, hc]
  · intro h1 h2 h3
    have hc : ¬ ((inner.height, inner.width) = st.lastSize ∨
        inner.width = 0 ∨ inner.height = 0) := by
      push_neg
      exact ⟨h1, h2, h3⟩
    simp [resizeToInner, hc, ParserScreen.setSize]

/-! ### C9: `verify_all` (src/verify.rs) -/

/-- The result of one verification run (`VerifyResult` in src/verify.rs). -/
structure VerifyResult where
  feature_id : String
  passed : Bool
  output : String
deriving DecidableEq, Repr

/-- The loop body of `verify_all` (src/verify.rs), over an explicit feature
list.  The filesystem check `script_path.exists()` and the execution of
`run_verify` (spawning `bash -c` in the project directory, returning exit
success and combined stdout+stderr, or an I/O error) are external effects,
abstracted as the function parameters `fsExists` and `run`. -/
def verifyAllGo (fsExists : String → Bool)
    (run : String → Except String (Bool × String)) :
    List Feature → Except String (List VerifyResult)
  | [] => .ok []
  | f :: fs =>
    if f.status = FeatureStatus.Done ∨ f.status = FeatureStatus.Claimed then
      if fsExists f.verify then
        match run ("bash " ++ f.verify) with
        | .error e => .error e
        | .ok (succ, out) =>
          match verifyAllGo fsExists run fs with
          | .error e => .error e
          | .ok rest => .ok ({ feature_id := f.id, passed := succ, output := out } :: rest)
      else
        match verifyAllGo fsExists run fs with
        | .error e => .error e
        | .ok rest =>
          .ok ({ feature_id := f.id, passed := false,
                 output := "verify script not found: " ++ f.verify } :: rest)
    else
      verifyAllGo fsExists run fs

/-- `verify_all`: run the verify script of every `Done` or `Claimed`
feature. -/
def verifyAll (fl : FeatureList) (fsExists : String → Bool)
    (run : String → Except String (Bool × String)) :
    Except String (List VerifyResult) :=
  verifyAllGo fsExists run fl.features

/-- Every produced result belongs to a `Done` or `Claimed` feature. -/
theorem verifyAllGo_sound {fsExists : String → Bool}
    {run : String → Except String (Bool × String)} :
    ∀ {l : List Feature} {res}, verifyAllGo fsExists run l = .ok res →
      ∀ r ∈ res, ∃ f ∈ l, r.feature_id = f.id ∧
        (f.status = .Done ∨ f.status = .Claimed)
  | [], res, h => by
    rw [verifyAllGo] at h
    injection h with h
    subst h
    intro r hr
    simp at hr
  | f :: fs, res, h => by
    rw [verifyAllGo] at h
    intro r hr
    split at h
    · rename_i hdc
      split at h
      · split at h
        · exact absurd h (by simp)
        · rename_i succ out hrun
          split at h
          · exact absurd h (by simp)
          · rename_i rest hrec
            injection h with h
            subst h
            rcases List.mem_cons.mp hr with rfl | hr
            · exact ⟨f, by simp, rfl, hdc⟩
            · obtain ⟨f', hf', hx⟩ := verifyAllGo_sound hrec r hr
              exact ⟨f', List.mem_cons_of_mem _ hf', hx⟩
      · split at h
        · exact absurd h (by simp)
        · rename_i rest hrec
          injection h with h
          subst h
          rcases List.mem_cons.mp hr with rfl | hr
          · exact ⟨f, by simp, rfl, hdc⟩
          · obtain ⟨f', hf', hx⟩ := verifyAllGo_sound hrec r hr
            exact ⟨f', List.mem_cons_of_mem _ hf', hx⟩
    · obtain ⟨f', hf', hx⟩ := verifyAllGo_sound h r hr
      exact ⟨f', List.mem_cons_of_mem _ hf', hx⟩

/-- A `Done`/`Claimed` feature whose script is missing yields a failed
result naming the script. -/
theorem verifyAllGo_missing {fsExists : String → Bool}
    {run : String → Except String (Bool × String)} :
    ∀ {l : List Feature} {res}, verifyAllGo fsExists run l = .ok res →
      ∀ f ∈ l, (f.status = .Done ∨ f.status = .Claimed) →
        fsExists f.verify = false →
        ({ feature_id := f.id, passed := false,
           output := "verify script not found: " ++ f.verify } : VerifyResult) ∈ res
  | [], res, h => by
    intro f hf
    simp at hf
  | f :: fs, res, h => by
    intro f' hf' hdc' hmiss'
    rw [verifyAllGo] at h
    rcases List.mem_cons.mp hf' with rfl | hf'
    · rw [if_pos hdc', hmiss'] at h
      simp only [Bool.false_eq_true, if_false] at h
      split at h
      · exact absurd h (by simp)
      · rename_i rest hrec
        injection h with h
        subst h
        exact List.mem_cons_self _ _
    · split at h
      · split at h
        · split at h
          · exact absurd h (by simp)
          · split at h
            · exact absurd h (by simp)
            · rename_i rest hrec
              injection h with h
              subst h
              exact List.mem_cons_of_mem _
                (verifyAllGo_missing hrec f' hf' hdc' hmiss')
        · split at h
          · exact absurd h (by simp)
          · rename_i rest hrec
            injection h with h
            subst h
            exact List.mem_cons_of_mem _
              (verifyAllGo_missing hrec f' hf' hdc' hmiss')
      · exact verifyAllGo_missing h f' hf' hdc' hmiss'

/-- If the script of every `Done`/`Claimed` feature that exists on disk
runs without an I/O error, the loop returns `ok` — in particular a missing
script never produces the error case. -/
theorem verifyAllGo_total {fsExists : String → Bool}
    {run : String → Except String (Bool × String)} :
    ∀ {l : List Feature},
      (∀ f ∈ l, (f.status = .Done ∨ f.status = .Claimed) →
        fsExists f.verify = true → ∃ v, run ("bash " ++ f.verify) = .ok v) →
      ∃ res, verifyAllGo fsExists run l = .ok res
  | [], _ => ⟨[], rfl⟩
  | f :: fs, hruns => by
    obtain ⟨rest, hrec⟩ := verifyAllGo_total
      (fun g hg => hruns g (List.mem_cons_of_mem _ hg))
    rw [verifyAllGo]
    by_cases hdc : f.status = FeatureStatus.Done ∨ f.status = FeatureStatus.Claimed
    · rw [if_pos hdc]
      by_cases hex : fsExists f.verify
      · obtain ⟨⟨succ, out⟩, hrun⟩ := hruns f (by simp) hdc hex
        rw [if_pos hex, hrun, hrec]
        exact ⟨_, rfl⟩
      · rw [if_neg hex]
        simp only [Bool.not_eq_true] at hex
        rw [hrec]
        exact ⟨_, rfl⟩
    · rw [if_neg hdc]
      exact ⟨rest, hrec⟩

/-- C9: `verify_all` produces results only for `Done` or `Claimed`
features; a `Done`/`Claimed` feature whose verify script does not exist
contributes a normal failed result whose output names the missing script,
and missing scripts never make `verify_all` return an error (only an I/O
failure of an actually executed script can). -/
theorem verifyAll_spec (fl : FeatureList) (fsExists : String → Bool)
    (run : String → Except String (Bool × String)) :
    (∀ res, verifyAll fl fsExists run = .ok res →
      (∀ r ∈ res, ∃ f ∈ fl.features, r.feature_id = f.id ∧
        (f.status = .Done ∨ f.status = .Claimed)) ∧
      (∀ f ∈ fl.features, (f.status = .Done ∨ f.status = .Claimed) →
        fsExists f.verify = false →
        ({ feature_id := f.id, passed := false,
           output := "verify script not found: " ++ f.verify } : VerifyResult) ∈ res)) ∧
    ((∀ f ∈ fl.features, (f.status = .Done ∨ f.status = .Claimed) →
        fsExists f.verify = true → ∃ v, run ("bash " ++ f.verify) = .ok v) →
      ∃ res, verifyAll fl fsExists run = .ok res) :=
  ⟨fun _ h => ⟨verifyAllGo_sound h, verifyAllGo_missing h⟩,
   fun hruns => verifyAllGo_total hruns⟩

/-! ### C6: grid layout (src/tui.rs `grid_dims` / `grid_rect`) -/

/-- `grid_dims` (src/tui.rs): 1–3 panes stack in one column; 4+ panes use
two columns with `rows = (n + cols - 1) / cols`. -/
def gridDims (n : Nat) : Nat × Nat :=
  if n ≤ 3 then (n, 1) else ((n + 2 - 1) / 2, 2)

/-- `grid_rect` (src/tui.rs): the rectangle of pane `index` out of `total`
inside `area`.  The last column takes the remaining width, the last row
the remaining height, and a final pane alone in its row spans the full
width. -/
def gridRect (area : Rect) (index total : Nat) : Rect :=
  let rows := (gridDims total).1
  let cols := (gridDims total).2
  let col := index % cols
  let row := index / cols
  let cellW := area.width / cols
  let cellH := area.height / rows
  let w := if index = total - 1 ∧ total % cols ≠ 0 then area.width
    else if col = cols - 1 then area.width - col * cellW
    else cellW
  let h := if row = rows - 1 then area.height - row * cellH else cellH
  ⟨area.x + col * cellW, area.y + row * cellH, w, h⟩

/-- The set of integer points covered by a rectangle (half-open on both
axes). -/
def rectPts (r : Rect) : Finset (Nat × Nat) :=
  Finset.Ico r.x (r.x + r.width) ×ˢ Finset.Ico r.y (r.y + r.height)

/-- Membership in `rectPts`, unfolded. -/
theorem mem_rectPts {r : Rect} {p : Nat × Nat} :
    p ∈ rectPts r ↔ (r.x ≤ p.1 ∧ p.1 < r.x + r.width) ∧
      (r.y ≤ p.2 ∧ p.2 < r.y + r.height) := by
  simp [rectPts, Finset.mem_product, Finset.mem_Ico]

/-- A rectangle covers `width * height` points. -/
theorem rectPts_card (r : Rect) : (rectPts r).card = r.width * r.height := by
  simp [rectPts, Nat.card_Ico]

set_option maxHeartbeats 2000000 in
/-- C6: for 1–9 panes and any positive area, the pane rectangles tile the
area exactly — their union is the whole area and they are pairwise
disjoint; 1–3 panes lie in a single column, `n ≥ 4` panes in two columns
with `ceil(n/2)` rows; and when the last pane is alone in its row (odd
`n ≥ 4`) it starts at the left edge and spans the full width. -/
theorem grid_layout_spec (a : Rect) (n : Nat) (h1 : 1 ≤ n) (h9 : n ≤ 9)
    (hw : 0 < a.width) (hh : 0 < a.height) :
    ((Finset.range n).biUnion (fun i => rectPts (gridRect a i n)) = rectPts a) ∧
    (∀ i j, i < j → j < n →
      Disjoint (rectPts (gridRect a i n)) (rectPts (gridRect a j n))) ∧
    (n ≤ 3 → gridDims n = (n, 1)) ∧
    (4 ≤ n → gridDims n = ((n + 1) / 2, 2)) ∧
    (n % 2 = 1 → 4 ≤ n →
      (gridRect a (n - 1) n).width = a.width ∧ (gridRect a (n - 1) n).x = a.x) := by
  have hsub : ∀ i < n, ∀ p ∈ rectPts (gridRect a i n), p ∈ rectPts a := by
    interval_cases n <;>
      (intro i hi
       interval_cases i <;>
         (intro p hp
          rw [mem_rectPts] at hp ⊢
          simp [gridRect, gridDims] at hp
          omega))
  have hdisj : ∀ i j, i < j → j < n →
      Disjoint (rectPts (gridRect a i n)) (rectPts (gridRect a j n)) := by
    intro i j hij hj
    rw [Finset.disjoint_left]
    intro p hp hq
    interval_cases n <;> interval_cases j <;> interval_cases i <;>
      (rw [mem_rectPts] at hp hq
       simp [gridRect, gridDims] at hp hq
       omega)
  have hsum : ∑ i ∈ Finset.range n,
      (gridRect a i n).width * (gridRect a i n).height =
      a.width * a.height := by
    have hw2 : a.width / 2 ≤ a.width := by omega
    have hh2 : a.height / 2 ≤ a.height := by omega
    have hh3 : 2 * (a.height / 3) ≤ a.height := by omega
    have hh4 : 3 * (a.height / 4) ≤ a.height := by omega
    have hh5 : 4 * (a.height / 5) ≤ a.height := by omega
    interval_cases n <;>
      simp [Finset.sum_range_succ, gridRect, gridDims] <;>
      zify [hw2, hh2, hh3, hh4, hh5] <;>
      ring
  have hcover : (Finset.range n).biUnion
      (fun i => rectPts (gridRect a i n)) = rectPts a := by
    apply Finset.eq_of_subset_of_card_le
    · intro p hp
      obtain ⟨i, hi, hpi⟩ := Finset.mem_biUnion.mp hp
      exact hsub i (Finset.mem_range.mp hi) p hpi
    · rw [Finset.card_biUnion]
      · refine le_of_eq ?_
        rw [rectPts_card, ← hsum]
        exact Finset.sum_congr rfl fun i _ => (rectPts_card _).symm
      · intro i hi j hj hne
        rcases Nat.lt_or_ge i j with hlt | hge
        · exact hdisj i j hlt (Finset.mem_range.mp hj)
        · exact (hdisj j i (Nat.lt_of_le_of_ne hge (Ne.symm hne))
            (Finset.mem_range.mp hi)).symm
  refine ⟨hcover, hdisj, ?_, ?_, ?_⟩
  · intro h3
    rw [gridDims, if_pos h3]
  · intro h4
    rw [gridDims, if_neg (by omega), show n + 2 - 1 = n + 1 by omega]
  · intro hodd h4
    interval_cases n <;> simp_all [gridRect, gridDims]

/-! ### C5: `milestone_claimable` (src/features.rs) -/

/-- The `feature_map` lookup of `milestone_claimable`: a `HashMap` built by
`collect` keeps the *last* entry for a duplicated key, so the lookup is
`find?` over the reversed list. -/
def mapGet (fl : FeatureList) (fid : String) : Option Feature :=
  fl.features.reverse.find? fun f => f.id = fid

/-- The sort key used for frontier and orphan ordering:
`feature_map.get(id).map(|f| f.priority).unwrap_or(u32::MAX)`. -/
def priorityKey (fl : FeatureList) (fid : String) : Nat :=
  match mapGet fl fid with
  | some f => f.priority
  | none => 4294967295

/-- Rust's stable `sort_by_key` on the priority key, modelled as a stable
insertion sort. -/
def sortByPriorityKey (fl : FeatureList) (ids : List String) : List String :=
  ids.insertionSort fun x y => priorityKey fl x ≤ priorityKey fl y

/-- The milestones: incomplete `Review` features, stably sorted by
priority (`sort_by_key` modelled as a stable insertion sort). -/
def sortedMilestones (fl : FeatureList) : List Feature :=
  (fl.features.filter fun f =>
      f.feature_type = FeatureType.Review ∧ f.status ≠ FeatureStatus.Done).insertionSort
    fun x y => x.priority ≤ y.priority

/-- Total number of dependency edges, used only to bound the BFS fuel. -/
def totalDeps (fl : FeatureList) : Nat :=
  (fl.features.map fun f => f.depends_on.length).sum

/-- Every id that can ever enter the BFS queue: the start ids and every id
occurring in some `depends_on`. -/
def bfsCandidates (fl : FeatureList) (start : List String) : List String :=
  (start ++ (fl.features.map fun f => f.depends_on).flatten).dedup

/-- Enough fuel for the BFS worklist to drain (proved in
`bfsAux_isSome_of_fuel`). -/
def bfsFuel (fl : FeatureList) (start : List String) : Nat :=
  start.length + (bfsCandidates fl start).length * (totalDeps fl + 1) + 1

/-- The BFS loop of `milestone_claimable` (src/features.rs): pop an id from
the queue; skip it if already visited, otherwise mark it visited, append it
to the frontier (and to `assigned`) when it is claimable and unassigned,
and enqueue its dependencies.  The Rust loop terminates because `visited`
grows; here the same argument is packaged as an explicit fuel parameter,
with `none` only for insufficient fuel. -/
def bfsAux (fl : FeatureList) :
    Nat → List String → List String → List String → List String →
    Option (List String × List String × List String)
  | 0, _, _, _, _ => none
  | _ + 1, [], visited, assigned, frontier => some (visited, assigned, frontier)
  | fuel + 1, depId :: queue, visited, assigned, frontier =>
    if depId ∈ visited then
      bfsAux fl fuel queue visited assigned frontier
    else
      bfsAux fl fuel
        (match mapGet fl depId with
          | some f => queue ++ f.depends_on
          | none => queue)
        (depId :: visited)
        (if depId ∈ claimableIds fl ∧ depId ∉ assigned
          then depId :: assigned else assigned)
        (if depId ∈ claimableIds fl ∧ depId ∉ assigned
          then frontier ++ [depId] else frontier)

/-- One milestone's BFS: the sorted claimable frontier and the updated
`assigned` set. -/
def milestoneFrontier (fl : FeatureList) (ms : Feature) (assigned : List String) :
    List String × List String :=
  match bfsAux fl (bfsFuel fl ms.depends_on) ms.depends_on [] assigned [] with
  | some (_, assigned', frontier) => (sortByPriorityKey fl frontier, assigned')
  | none => ([], assigned)

/-- The milestone loop of `milestone_claimable`: one (possibly skipped)
group per milestone, threading the `assigned` set. -/
def milestoneGroupsGo (fl : FeatureList) :
    List Feature → List String → List (String × List String) × List String
  | [], assigned => ([], assigned)
  | ms :: rest, assigned =>
    let fr := milestoneFrontier fl ms assigned
    let restRes := milestoneGroupsGo fl rest fr.2
    (if fr.1.isEmpty then restRes.1 else (ms.id, fr.1) :: restRes.1, restRes.2)

/-- `FeatureList::milestone_claimable`: claimable features grouped by the
earliest milestone they unblock; features in no milestone's dependency
tree are grouped under the empty milestone id, appended last.  Groups that
would be empty are skipped. -/
def milestoneClaimable (fl : FeatureList) : List (String × List String) :=
  if (claimableIds fl).isEmpty then []
  else
    let r := milestoneGroupsGo fl (sortedMilestones fl) []
    let orphans := sortByPriorityKey fl
      ((claimableIds fl).dedup.filter fun fid => fid ∉ r.2)
    r.1 ++ (if orphans.isEmpty then [] else [("", orphans)])

/-- The fixture of the `milestone_claimable_groups_by_review` test in
src/features.rs. -/
def msFixture : FeatureList :=
  ⟨[{ id := "f030", feature_type := .Implement, scope := "sql", description := "Done dep",
      verify := "true", depends_on := [], priority := 50, status := .Done,
      claimed_by := none, blocked_reason := none, context_hints := [] },
    { id := "f042", feature_type := .Implement, scope := "sql", description := "UNION",
      verify := "true", depends_on := ["f030"], priority := 139, status := .Pending,
      claimed_by := none, blocked_reason := none, context_hints := [] },
    { id := "f065", feature_type := .Implement, scope := "node", description := "Role mgmt",
      verify := "true", depends_on := [], priority := 100, status := .Pending,
      claimed_by := none, blocked_reason := none, context_hints := [] },
    { id := "r104", feature_type := .Review, scope := "all", description := "M4 review",
      verify := "true", depends_on := ["f042"], priority := 154, status := .Pending,
      claimed_by := none, blocked_reason := none, context_hints := [] },
    { id := "r105", feature_type := .Review, scope := "all", description := "M5 review",
      verify := "true", depends_on := ["f065"], priority := 179, status := .Pending,
      claimed_by := none, blocked_reason := none, context_hints := [] }]⟩

example : milestoneClaimable msFixture = [("r104", ["f042"]), ("r105", ["f065"])] := by
  decide

/-- Declarative transitive-dependency reachability: everything reachable
from the ids in `start` by repeatedly following `depends_on` edges through
the feature map. -/
inductive Reaches (fl : FeatureList) (start : List String) : String → Prop where
  | base {d : String} : d ∈ start → Reaches fl start d
  | step {x d : String} {f : Feature} : Reaches fl start x → mapGet fl x = some f →
      d ∈ f.depends_on → Reaches fl start d

/-- The BFS worklist invariant: a completed run visits everything on the
queue, is closed under dependency edges on newly visited ids, and extends
`frontier`/`assigned` by exactly the newly visited claimable unassigned
ids. -/
theorem bfsAux_spec {fl : FeatureList} :
    ∀ {fuel : Nat} {queue visited assigned frontier visF asgF frF : List String},
      bfsAux fl fuel queue visited assigned frontier = some (visF, asgF, frF) →
      (∀ x ∈ visited, x ∈ visF) ∧
      (∀ x ∈ queue, x ∈ visF) ∧
      (∀ x ∈ visF, x ∉ visited → ∀ f, mapGet fl x = some f →
        ∀ d ∈ f.depends_on, d ∈ visF) ∧
      (∀ x, x ∈ frF ↔ x ∈ frontier ∨
        (x ∈ visF ∧ x ∉ visited ∧ x ∈ claimableIds fl ∧ x ∉ assigned)) ∧
      (∀ x, x ∈ asgF ↔ x ∈ assigned ∨
        (x ∈ visF ∧ x ∉ visited ∧ x ∈ claimableIds fl)) := by
  intro fuel
  induction fuel with
  | zero =>
    intro queue visited assigned frontier visF asgF frF h
    rw [bfsAux] at h
    exact absurd h (by simp)
  | succ fuel ih =>
    intro queue visited assigned frontier visF asgF frF h
    match queue with
    | [] =>
      rw [bfsAux] at h
      injection h with h
      injection h with h1 h
      injection h with h2 h3
      subst h1
      subst h2
      subst h3
      refine ⟨fun x hx => hx, by simp, fun x hx hnx => absurd hx hnx, ?_, ?_⟩
      · intro x
        constructor
        · intro hx
          exact Or.inl hx
        · rintro (hx | ⟨hv, hnv, _⟩)
          · exact hx
          · exact absurd hv hnv
      · intro x
        constructor
        · intro hx
          exact Or.inl hx
        · rintro (hx | ⟨hv, hnv, _⟩)
          · exact hx
          · exact absurd hv hnv
    | depId :: queue =>
      rw [bfsAux] at h
      by_cases hvis : depId ∈ visited
      · rw [if_pos hvis] at h
        obtain ⟨ha, hb, hc, hfr, hasg⟩ := ih h
        refine ⟨ha, ?_, hc, hfr, hasg⟩
        intro x hx
        rcases List.mem_cons.mp hx with rfl | hx
        · exact ha x hvis
        · exact hb x hx
      · rw [if_neg hvis] at h
        obtain ⟨ha, hb, hc, hfr, hasg⟩ := ih h
        have hdepvis : depId ∈ visF := ha depId (List.mem_cons_self _ _)
        have hqueue : ∀ x ∈ queue, x ∈ visF := by
          intro x hx
          apply hb
          cases mapGet fl depId with
          | none => exact hx
          | some f => exact List.mem_append_left _ hx
        refine ⟨?_, ?_, ?_, ?_, ?_⟩
        · intro x hx
          exact ha x (List.mem_cons_of_mem _ hx)
        · intro x hx
          rcases List.mem_cons.mp hx with rfl | hx
          · exact hdepvis
          · exact hqueue x hx
        · intro x hx hnx f hf d hd
          by_cases hxd : x = depId
          · subst hxd
            apply hb
            rw [hf]
            exact List.mem_append_right _ hd
          · exact hc x hx (by
              intro hmem
              rcases List.mem_cons.mp hmem with h1 | h1
              · exact hxd h1
              · exact hnx h1) f hf d hd
        · intro x
          rw [hfr x]
          by_cases hcl : depId ∈ claimableIds fl ∧ depId ∉ assigned
          · simp only [if_pos hcl]
            constructor
            · rintro (hx | ⟨h1, h2, h3, h4⟩)
              · rcases List.mem_append.mp hx with hx | hx
                · exact Or.inl hx
                · rcases List.mem_singleton.mp hx with rfl
                  exact Or.inr ⟨hdepvis, hvis, hcl.1, hcl.2⟩
              · refine Or.inr ⟨h1, fun hv => h2 (List.mem_cons_of_mem _ hv), h3, ?_⟩
                intro hx4
                exact h4 (List.mem_cons_of_mem _ hx4)
            · rintro (hx | ⟨h1, h2, h3, h4⟩)
              · exact Or.inl (List.mem_append_left _ hx)
              · by_cases hxd : x = depId
                · subst hxd
                  exact Or.inl (List.mem_append_right _ (List.mem_singleton.mpr rfl))
                · refine Or.inr ⟨h1, ?_, h3, ?_⟩
                  · intro hmem
                    rcases List.mem_cons.mp hmem with h5 | h5
                    · exact hxd h5
                    · exact h2 h5
                  · intro hmem
                    rcases List.mem_cons.mp hmem with h5 | h5
                    · exact hxd h5
                    · exact h4 h5
          · simp only [if_neg hcl]
            constructor
            · rintro (hx | ⟨h1, h2, h3, h4⟩)
              · exact Or.inl hx
              · exact Or.inr ⟨h1, fun hv => h2 (List.mem_cons_of_mem _ hv), h3, h4⟩
            · rintro (hx | ⟨h1, h2, h3, h4⟩)
              · exact Or.inl hx
              · by_cases hxd : x = depId
                · subst hxd
                  exact absurd ⟨h3, h4⟩ hcl
                · refine Or.inr ⟨h1, ?_, h3, h4⟩
                  intro hmem
                  rcases List.mem_cons.mp hmem with h5 | h5
                  · exact hxd h5
                  · exact h2 h5
        · intro x
          rw [hasg x]
          by_cases hcl : depId ∈ claimableIds fl ∧ depId ∉ assigned
          · simp only [if_pos hcl]
            constructor
            · rintro (hx | ⟨h1, h2, h3⟩)
              · rcases List.mem_cons.mp hx with rfl | hx
                · exact Or.inr ⟨hdepvis, hvis, hcl.1⟩
                · exact Or.inl hx
              · exact Or.inr ⟨h1, fun hv => h2 (List.mem_cons_of_mem _ hv), h3⟩
            · rintro (hx | ⟨h1, h2, h3⟩)
              · exact Or.inl (List.mem_cons_of_mem _ hx)
              · by_cases hxd : x = depId
                · subst hxd
                  exact Or.inl (List.mem_cons_self _ _)
                · refine Or.inr ⟨h1, ?_, h3⟩
                  intro hmem
                  rcases List.mem_cons.mp hmem with h5 | h5
                  · exact hxd h5
                  · exact h2 h5
          · simp only [if_neg hcl]
            constructor
            · rintro (hx | ⟨h1, h2, h3⟩)
              · exact Or.inl hx
              · exact Or.inr ⟨h1, fun hv => h2 (List.mem_cons_of_mem _ hv), h3⟩
            · rintro (hx | ⟨h1, h2, h3⟩)
              · exact Or.inl hx
              · by_cases hxd : x = depId
                · subst hxd
                  rcases Decidable.not_and_iff_or_not.mp hcl with h4 | h4
                  · exact absurd h3 h4
                  · exact Or.inl (Decidable.not_not.mp h4)
                · refine Or.inr ⟨h1, ?_, h3⟩
                  intro hmem
                  rcases List.mem_cons.mp hmem with h5 | h5
                  · exact hxd h5
                  · exact h2 h5


/-- A successful `mapGet` returns a feature of the list. -/
theorem mapGet_mem {fl : FeatureList} {fid : String} {f : Feature}
    (h : mapGet fl fid = some f) : f ∈ fl.features :=
  List.mem_reverse.mp (List.mem_of_find?_eq_some h)

/-- One feature's dependency count is at most the total. -/
theorem deps_le_totalDeps {fl : FeatureList} {f : Feature} (h : f ∈ fl.features) :
    f.depends_on.length ≤ totalDeps fl :=
  List.single_le_sum (fun _ _ => Nat.zero_le _) _ (List.mem_map_of_mem _ h)

/-- Visiting a fresh element of a duplicate-free candidate list decreases
the count of unvisited candidates by exactly one. -/
theorem length_filter_cons_lt {l : List String} (hl : l.Nodup) {a : String}
    {vis : List String} (ha : a ∈ l) (hav : a ∉ vis) :
    (l.filter fun x => x ∉ (a :: vis)).length + 1 =
      (l.filter fun x => x ∉ vis).length := by
  induction l with
  | nil => simp at ha
  | cons b bs ih =>
    rw [List.nodup_cons] at hl
    rcases List.mem_cons.mp ha with rfl | ha'
    · rw [List.filter_cons, List.filter_cons]
      have h1 : (decide (a ∉ a :: vis)) = false := by simp
      have h2 : (decide (a ∉ vis)) = true := by simpa using hav
      rw [h1, h2]
      have h3 : bs.filter (fun x => x ∉ (a :: vis)) = bs.filter (fun x => x ∉ vis) := by
        apply List.filter_congr
        intro x hx
        have hxb : ¬ x = a := fun he => hl.1 (he ▸ hx)
        simp [hxb]
      rw [h3]
      simp
    · have hba : ¬ b = a := fun he => hl.1 (he ▸ ha')
      rw [List.filter_cons, List.filter_cons]
      by_cases hb : b ∈ vis
      · have h1 : (decide (b ∉ a :: vis)) = false := by simp [hb]
        have h2 : (decide (b ∉ vis)) = false := by simp [hb]
        rw [h1, h2]
        simpa using ih hl.2 ha'
      · have h1 : (decide (b ∉ a :: vis)) = true := by simp [hb, hba]
        have h2 : (decide (b ∉ vis)) = true := by simp [hb]
        rw [h1, h2]
        simp only [if_true, List.length_cons]
        have := ih hl.2 ha'
        omega

/-- With fuel exceeding the worklist potential, the BFS completes. -/
theorem bfsAux_isSome {fl : FeatureList} {cand : List String} (hnd : cand.Nodup)
    (hdeps : ∀ f ∈ fl.features, ∀ d ∈ f.depends_on, d ∈ cand) :
    ∀ {fuel : Nat} {queue visited assigned frontier : List String},
      (∀ q ∈ queue, q ∈ cand) →
      queue.length +
        (cand.filter fun x => x ∉ visited).length * (totalDeps fl + 1) < fuel →
      (bfsAux fl fuel queue visited assigned frontier).isSome := by
  intro fuel
  induction fuel with
  | zero =>
    intro queue visited assigned frontier hq hcnt
    exact absurd hcnt (Nat.not_lt_zero _)
  | succ fuel ih =>
    intro queue visited assigned frontier hq hcnt
    match queue with
    | [] =>
      rw [bfsAux]
      simp
    | depId :: queue =>
      rw [bfsAux]
      by_cases hvis : depId ∈ visited
      · rw [if_pos hvis]
        apply ih (fun q hq' => hq q (List.mem_cons_of_mem _ hq'))
        simp only [List.length_cons] at hcnt
        omega
      · rw [if_neg hvis]
        refine ih ?_ ?_
        · intro q hq'
          cases hmg : mapGet fl depId with
          | none =>
            rw [hmg] at hq'
            exact hq q (List.mem_cons_of_mem _ hq')
          | some f =>
            rw [hmg] at hq'
            rcases List.mem_append.mp hq' with h1 | h1
            · exact hq q (List.mem_cons_of_mem _ h1)
            · exact hdeps f (mapGet_mem hmg) q h1
        · have hdc : depId ∈ cand := hq depId (List.mem_cons_self _ _)
          have hcount := length_filter_cons_lt hnd hdc hvis
          have hqlen : (match mapGet fl depId with
              | some f => queue ++ f.depends_on
              | none => queue).length ≤ queue.length + totalDeps fl := by
            cases hmg : mapGet fl depId with
            | none =>
              simp
            | some f =>
              have := deps_le_totalDeps (mapGet_mem hmg)
              simp only [List.length_append]
              omega
          simp only [List.length_cons] at hcnt
          rw [← hcount] at hcnt
          have hexp : ((cand.filter fun x => x ∉ depId :: visited).length + 1) *
              (totalDeps fl + 1) =
              (cand.filter fun x => x ∉ depId :: visited).length *
                (totalDeps fl + 1) + (totalDeps fl + 1) := by
            ring
          rw [hexp] at hcnt
          generalize (cand.filter fun x => x ∉ depId :: visited).length *
            (totalDeps fl + 1) = P at hcnt ⊢
          omega

/-- Everything the BFS visits is reachable from the initial queue. -/
theorem bfsAux_sound {fl : FeatureList} {start : List String} :
    ∀ {fuel : Nat} {queue visited assigned frontier visF asgF frF : List String},
      bfsAux fl fuel queue visited assigned frontier = some (visF, asgF, frF) →
      (∀ q ∈ queue, Reaches fl start q) →
      (∀ v ∈ visited, Reaches fl start v) →
      ∀ x ∈ visF, Reaches fl start x := by
  intro fuel
  induction fuel with
  | zero =>
    intro queue visited assigned frontier visF asgF frF h
    rw [bfsAux] at h
    exact absurd h (by simp)
  | succ fuel ih =>
    intro queue visited assigned frontier visF asgF frF h hq hv
    match queue with
    | [] =>
      rw [bfsAux] at h
      injection h with h
      injection h with h1 h
      subst h1
      exact hv
    | depId :: queue =>
      rw [bfsAux] at h
      by_cases hvis : depId ∈ visited
      · rw [if_pos hvis] at h
        exact ih h (fun q hq' => hq q (List.mem_cons_of_mem _ hq')) hv
      · rw [if_neg hvis] at h
        refine ih h ?_ ?_
        · intro q hq'
          cases hmg : mapGet fl depId with
          | none =>
            rw [hmg] at hq'
            exact hq q (List.mem_cons_of_mem _ hq')
          | some f =>
            rw [hmg] at hq'
            rcases List.mem_append.mp hq' with h1 | h1
            · exact hq q (List.mem_cons_of_mem _ h1)
            · exact Reaches.step (hq depId (List.mem_cons_self _ _)) hmg h1
        · intro v hv'
          rcases List.mem_cons.mp hv' with rfl | hv'
          · exact hq v (List.mem_cons_self _ _)
          · exact hv v hv'

/-- The top-level BFS call always completes on the fuel `bfsFuel`. -/
theorem bfs_run_isSome (fl : FeatureList) (start assigned : List String) :
    (bfsAux fl (bfsFuel fl start) start [] assigned []).isSome := by
  apply @bfsAux_isSome fl (bfsCandidates fl start) (List.nodup_dedup _)
  · intro f hf d hd
    apply List.mem_dedup.mpr
    exact List.mem_append_right _
      (List.mem_flatten.mpr ⟨f.depends_on, List.mem_map_of_mem _ hf, hd⟩)
  · intro q hq
    exact List.mem_dedup.mpr (List.mem_append_left _ hq)
  · have hfe : ((bfsCandidates fl start).filter
        fun x => x ∉ ([] : List String)) = bfsCandidates fl start :=
      List.filter_eq_self.mpr fun a _ => by simp
    rw [hfe]
    exact Nat.lt_succ_self _

/-- Characterization of a completed top-level BFS run. -/
theorem bfs_run_spec {fl : FeatureList} {start assigned visF asgF frF : List String}
    (h : bfsAux fl (bfsFuel fl start) start [] assigned [] = some (visF, asgF, frF)) :
    (∀ x, x ∈ visF ↔ Reaches fl start x) ∧
    (∀ x, x ∈ frF ↔ Reaches fl start x ∧ x ∈ claimableIds fl ∧ x ∉ assigned) ∧
    (∀ x, x ∈ asgF ↔ x ∈ assigned ∨ (Reaches fl start x ∧ x ∈ claimableIds fl)) := by
  obtain ⟨ha, hb, hc, hfr, hasg⟩ := bfsAux_spec h
  have hvis : ∀ x, x ∈ visF ↔ Reaches fl start x := by
    intro x
    constructor
    · intro hx
      exact bfsAux_sound h (fun q hq => Reaches.base hq) (by simp) x hx
    · intro hr
      induction hr with
      | base hd => exact hb _ hd
      | step hr hmg hd ihr => exact hc _ ihr (by simp) _ hmg _ hd
  refine ⟨hvis, ?_, ?_⟩
  · intro x
    rw [hfr x, hvis x]
    simp
  · intro x
    rw [hasg x, hvis x]
    simp


/-- Characterization of one milestone's frontier and `assigned` update. -/
theorem milestoneFrontier_spec (fl : FeatureList) (ms : Feature) (assigned : List String) :
    (∀ x, x ∈ (milestoneFrontier fl ms assigned).1 ↔
      Reaches fl ms.depends_on x ∧ x ∈ claimableIds fl ∧ x ∉ assigned) ∧
    (∀ x, x ∈ (milestoneFrontier fl ms assigned).2 ↔
      x ∈ assigned ∨ (Reaches fl ms.depends_on x ∧ x ∈ claimableIds fl)) := by
  have hsome := bfs_run_isSome fl ms.depends_on assigned
  cases hb : bfsAux fl (bfsFuel fl ms.depends_on) ms.depends_on [] assigned [] with
  | none =>
    rw [hb] at hsome
    simp at hsome
  | some r =>
    obtain ⟨visF, asgF, frF⟩ := r
    obtain ⟨h1, h2, h3⟩ := bfs_run_spec hb
    unfold milestoneFrontier
    rw [hb]
    constructor
    · intro x
      show x ∈ sortByPriorityKey fl frF ↔ _
      unfold sortByPriorityKey
      rw [(List.perm_insertionSort _ _).mem_iff]
      exact h2 x
    · intro x
      show x ∈ asgF ↔ _
      exact h3 x

/-- Full characterization of the milestone loop: the output `assigned` set,
the shape and order of the produced groups, and exact group membership in
terms of reachability and "no earlier milestone reaches it". -/
theorem milestoneGroupsGo_spec (fl : FeatureList) :
    ∀ (msList : List Feature) (assigned : List String),
      (∀ x, x ∈ (milestoneGroupsGo fl msList assigned).2 ↔
        x ∈ assigned ∨ (x ∈ claimableIds fl ∧ ∃ ms ∈ msList, Reaches fl ms.depends_on x)) ∧
      ((milestoneGroupsGo fl msList assigned).1.map Prod.fst).Sublist
        (msList.map (·.id)) ∧
      (∀ p ∈ (milestoneGroupsGo fl msList assigned).1, p.2 ≠ []) ∧
      (∀ p ∈ (milestoneGroupsGo fl msList assigned).1, ∀ x ∈ p.2,
        x ∈ claimableIds fl ∧ x ∉ assigned ∧
        ∃ pre ms post, msList = pre ++ ms :: post ∧ ms.id = p.1 ∧
          Reaches fl ms.depends_on x ∧ ∀ m' ∈ pre, ¬ Reaches fl m'.depends_on x) ∧
      (∀ pre ms post, msList = pre ++ ms :: post →
        ∀ x, x ∈ claimableIds fl → x ∉ assigned → Reaches fl ms.depends_on x →
          (∀ m' ∈ pre, ¬ Reaches fl m'.depends_on x) →
          ∃ g, (ms.id, g) ∈ (milestoneGroupsGo fl msList assigned).1 ∧ x ∈ g)
  | [], assigned => by
    refine ⟨?_, ?_, ?_, ?_, ?_⟩
    · intro x
      simp [milestoneGroupsGo]
    · simp [milestoneGroupsGo]
    · intro p hp
      simp [milestoneGroupsGo] at hp
    · intro p hp
      simp [milestoneGroupsGo] at hp
    · intro pre ms post h
      exact absurd h (by simp)
  | m :: rest, assigned => by
    obtain ⟨hf1, hf2⟩ := milestoneFrontier_spec fl m assigned
    obtain ⟨ih1, ih2, ih3, ih4, ih5⟩ :=
      milestoneGroupsGo_spec fl rest (milestoneFrontier fl m assigned).2
    have hstep1 : (milestoneGroupsGo fl (m :: rest) assigned).1 =
        (if (milestoneFrontier fl m assigned).1.isEmpty then
          (milestoneGroupsGo fl rest (milestoneFrontier fl m assigned).2).1
        else (m.id, (milestoneFrontier fl m assigned).1) ::
          (milestoneGroupsGo fl rest (milestoneFrontier fl m assigned).2).1) := rfl
    have hstep2 : (milestoneGroupsGo fl (m :: rest) assigned).2 =
        (milestoneGroupsGo fl rest (milestoneFrontier fl m assigned).2).2 := rfl
    have hnotF : ∀ x, x ∉ (milestoneFrontier fl m assigned).2 →
        x ∉ assigned ∧ ¬ (Reaches fl m.depends_on x ∧ x ∈ claimableIds fl) := by
      intro x hx
      constructor
      · intro ha
        exact hx ((hf2 x).mpr (Or.inl ha))
      · intro hrc
        exact hx ((hf2 x).mpr (Or.inr hrc))
    refine ⟨?_, ?_, ?_, ?_, ?_⟩
    · intro x
      rw [hstep2, ih1 x, hf2 x]
      constructor
      · rintro ((h | ⟨hr, hc⟩) | ⟨hc, ms, hms, hr⟩)
        · exact Or.inl h
        · exact Or.inr ⟨hc, m, List.mem_cons_self _ _, hr⟩
        · exact Or.inr ⟨hc, ms, List.mem_cons_of_mem _ hms, hr⟩
      · rintro (h | ⟨hc, ms, hms, hr⟩)
        · exact Or.inl (Or.inl h)
        · rcases List.mem_cons.mp hms with rfl | hms
          · exact Or.inl (Or.inr ⟨hr, hc⟩)
          · exact Or.inr ⟨hc, ms, hms, hr⟩
    · rw [hstep1]
      by_cases hem : (milestoneFrontier fl m assigned).1.isEmpty
      · simp only [if_pos hem]
        exact ih2.cons _
      · simp only [if_neg hem, List.map_cons]
        exact ih2.cons₂ _
    · intro p hp
      rw [hstep1] at hp
      by_cases hem : (milestoneFrontier fl m assigned).1.isEmpty
      · rw [if_pos hem] at hp
        exact ih3 p hp
      · rw [if_neg hem] at hp
        rcases List.mem_cons.mp hp with rfl | hp
        · show (milestoneFrontier fl m assigned).1 ≠ []
          intro he
          rw [he] at hem
          exact hem rfl
        · exact ih3 p hp
    · intro p hp x hx
      rw [hstep1] at hp
      have hlift : p ∈ (milestoneGroupsGo fl rest (milestoneFrontier fl m assigned).2).1 →
          x ∈ p.2 →
          x ∈ claimableIds fl ∧ x ∉ assigned ∧
          ∃ pre ms post, m :: rest = pre ++ ms :: post ∧ ms.id = p.1 ∧
            Reaches fl ms.depends_on x ∧ ∀ m' ∈ pre, ¬ Reaches fl m'.depends_on x := by
        intro hp' hx'
        obtain ⟨hc, hnF, pre', ms', post', hsplit, hms', hr', hpre'⟩ := ih4 p hp' x hx'
        obtain ⟨hna, hnm⟩ := hnotF x hnF
        refine ⟨hc, hna, m :: pre', ms', post',
          by rw [hsplit, List.cons_append], hms', hr', ?_⟩
        intro m' hm'
        rcases List.mem_cons.mp hm' with rfl | hm'
        · intro hrm
          exact hnm ⟨hrm, hc⟩
        · exact hpre' m' hm'
      by_cases hem : (milestoneFrontier fl m assigned).1.isEmpty
      · rw [if_pos hem] at hp
        exact hlift hp hx
      · rw [if_neg hem] at hp
        rcases List.mem_cons.mp hp with rfl | hp
        · obtain ⟨hr, hc, hna⟩ := (hf1 x).mp hx
          exact ⟨hc, hna, [], m, rest, rfl, rfl, hr, by simp⟩
        · exact hlift hp hx
    · intro pre ms post heq x hc hna hr hpre
      match pre, heq with
      | [], heq =>
        injection heq with h1 h2
        subst h1
        subst h2
        have hxF : x ∈ (milestoneFrontier fl m assigned).1 :=
          (hf1 x).mpr ⟨hr, hc, hna⟩
        have hem : ¬ (milestoneFrontier fl m assigned).1.isEmpty := by
          rw [List.isEmpty_iff]
          exact List.ne_nil_of_mem hxF
        rw [hstep1, if_neg hem]
        exact ⟨(milestoneFrontier fl m assigned).1, List.mem_cons_self _ _, hxF⟩
      | p₀ :: pre', heq =>
        injection heq with h1 h2
        subst h1
        have hnm : ¬ Reaches fl m.depends_on x :=
          hpre m (List.mem_cons_self _ _)
        have hnF : x ∉ (milestoneFrontier fl m assigned).2 := by
          intro hmem
          rcases (hf2 x).mp hmem with h | ⟨h, _⟩
          · exact hna h
          · exact hnm h
        obtain ⟨g, hg, hxg⟩ := ih5 pre' ms post h2 x hc hnF hr
          (fun m' hm' => hpre m' (List.mem_cons_of_mem _ hm'))
        refine ⟨g, ?_, hxg⟩
        rw [hstep1]
        by_cases hem : (milestoneFrontier fl m assigned).1.isEmpty
        · rw [if_pos hem]
          exact hg
        · rw [if_neg hem]
          exact List.mem_cons_of_mem _ hg


instance : IsTotal Feature fun x y => x.priority ≤ y.priority :=
  ⟨fun a b => Nat.le_total a.priority b.priority⟩

instance : IsTrans Feature fun x y => x.priority ≤ y.priority :=
  ⟨fun _ _ _ hab hbc => Nat.le_trans hab hbc⟩

/-- The milestone list is sorted by ascending priority. -/
theorem sortedMilestones_pairwise (fl : FeatureList) :
    (sortedMilestones fl).Pairwise fun x y => x.priority ≤ y.priority :=
  List.sorted_insertionSort _ _

/-- The milestone list consists exactly of the incomplete review features. -/
theorem mem_sortedMilestones {fl : FeatureList} {m : Feature} :
    m ∈ sortedMilestones fl ↔
      m ∈ fl.features ∧ m.feature_type = .Review ∧ m.status ≠ .Done := by
  unfold sortedMilestones
  rw [(List.perm_insertionSort _ _).mem_iff, List.mem_filter]
  simp

/-- C5 (amended): `milestone_claimable` returns the milestone groups —
one group per incomplete `Review` task that has at least one claimable
unassigned task in its transitive dependency set, in ascending priority
order (empty groups are omitted) — followed, when non-empty, by the group
of orphans under the empty milestone id.  A claimable task belongs to the
group of the earliest milestone whose transitive dependency set contains
it, and to the orphan group when no milestone reaches it. -/
theorem milestoneClaimable_spec (fl : FeatureList) :
    ∃ gs orph,
      milestoneClaimable fl = gs ++ orph ∧
      (gs.map Prod.fst).Sublist ((sortedMilestones fl).map (·.id)) ∧
      ((sortedMilestones fl).Pairwise fun x y => x.priority ≤ y.priority) ∧
      (∀ m, m ∈ sortedMilestones fl ↔
        m ∈ fl.features ∧ m.feature_type = .Review ∧ m.status ≠ .Done) ∧
      (∀ p ∈ gs, p.2 ≠ []) ∧
      (orph = [] ∨ ∃ o, orph = [("", o)] ∧ o ≠ []) ∧
      (∀ p ∈ gs, ∀ x ∈ p.2,
        x ∈ claimableIds fl ∧
        ∃ pre ms post, sortedMilestones fl = pre ++ ms :: post ∧ ms.id = p.1 ∧
          Reaches fl ms.depends_on x ∧ ∀ m' ∈ pre, ¬ Reaches fl m'.depends_on x) ∧
      (∀ pre ms post, sortedMilestones fl = pre ++ ms :: post →
        ∀ x, x ∈ claimableIds fl → Reaches fl ms.depends_on x →
          (∀ m' ∈ pre, ¬ Reaches fl m'.depends_on x) →
          ∃ g, (ms.id, g) ∈ gs ∧ x ∈ g) ∧
      (∀ o, orph = [("", o)] → ∀ x,
        (x ∈ o ↔ x ∈ claimableIds fl ∧
          ∀ m ∈ sortedMilestones fl, ¬ Reaches fl m.depends_on x)) ∧
      (∀ x, x ∈ claimableIds fl →
        (∀ m ∈ sortedMilestones fl, ¬ Reaches fl m.depends_on x) →
        ∃ o, orph = [("", o)] ∧ x ∈ o) := by
  by_cases hcs : (claimableIds fl).isEmpty
  · refine ⟨[], [], by simp [milestoneClaimable, hcs], by simp,
      sortedMilestones_pairwise fl, fun m => mem_sortedMilestones,
      by simp, Or.inl rfl, by simp, ?_, by simp, ?_⟩
    · intro pre ms post heq x hx
      rw [List.isEmpty_iff.mp hcs] at hx
      simp at hx
    · intro x hx
      rw [List.isEmpty_iff.mp hcs] at hx
      simp at hx
  · obtain ⟨hA, hSub, hNE, hSound, hComp⟩ :=
      milestoneGroupsGo_spec fl (sortedMilestones fl) []
    have horph : ∀ x, x ∈ sortByPriorityKey fl
        ((claimableIds fl).dedup.filter fun fid =>
          fid ∉ (milestoneGroupsGo fl (sortedMilestones fl) []).2) ↔
        x ∈ claimableIds fl ∧
          ∀ m ∈ sortedMilestones fl, ¬ Reaches fl m.depends_on x := by
      intro x
      unfold sortByPriorityKey
      rw [(List.perm_insertionSort _ _).mem_iff, List.mem_filter, List.mem_dedup]
      constructor
      · rintro ⟨hcl, hnR⟩
        refine ⟨hcl, ?_⟩
        intro m hm hr
        have hnR' : x ∉ (milestoneGroupsGo fl (sortedMilestones fl) []).2 := by
          simpa using hnR
        exact hnR' ((hA x).mpr (Or.inr ⟨hcl, m, hm, hr⟩))
      · rintro ⟨hcl, hnone⟩
        refine ⟨hcl, ?_⟩
        have hnR' : x ∉ (milestoneGroupsGo fl (sortedMilestones fl) []).2 := by
          intro hmem
          rcases (hA x).mp hmem with h | ⟨_, m, hm, hr⟩
          · simp at h
          · exact hnone m hm hr
        simpa using hnR'
    have hshape : milestoneClaimable fl =
        (milestoneGroupsGo fl (sortedMilestones fl) []).1 ++
        (if (sortByPriorityKey fl
            ((claimableIds fl).dedup.filter fun fid =>
              fid ∉ (milestoneGroupsGo fl (sortedMilestones fl) []).2)).isEmpty
          then []
          else [("", sortByPriorityKey fl
            ((claimableIds fl).dedup.filter fun fid =>
              fid ∉ (milestoneGroupsGo fl (sortedMilestones fl) []).2))]) := by
      simp only [milestoneClaimable, if_neg hcs]
    refine ⟨(milestoneGroupsGo fl (sortedMilestones fl) []).1, _, hshape, hSub,
      sortedMilestones_pairwise fl, fun m => mem_sortedMilestones, hNE, ?_,
      ?_, ?_, ?_, ?_⟩
    · by_cases hoe : (sortByPriorityKey fl
          ((claimableIds fl).dedup.filter fun fid =>
            fid ∉ (milestoneGroupsGo fl (sortedMilestones fl) []).2)).isEmpty
      · exact Or.inl (if_pos hoe)
      · refine Or.inr ⟨_, if_neg hoe, ?_⟩
        intro he
        rw [List.isEmpty_iff] at hoe
        exact hoe he
    · intro p hp x hx
      obtain ⟨hcl, _, hrest⟩ := hSound p hp x hx
      exact ⟨hcl, hrest⟩
    · intro pre ms post heq x hcl hr hpre
      exact hComp pre ms post heq x hcl (by simp) hr hpre
    · intro o ho x
      by_cases hoe : (sortByPriorityKey fl
          ((claimableIds fl).dedup.filter fun fid =>
            fid ∉ (milestoneGroupsGo fl (sortedMilestones fl) []).2)).isEmpty
      · rw [if_pos hoe] at ho
        exact absurd ho (by simp)
      · rw [if_neg hoe] at ho
        have ho2 : sortByPriorityKey fl
            ((claimableIds fl).dedup.filter fun fid =>
              fid ∉ (milestoneGroupsGo fl (sortedMilestones fl) []).2) = o := by
          injection ho with h1 _
          injection h1 with _ h2
        rw [← ho2]
        exact horph x
    · intro x hcl hnone
      have hx : x ∈ sortByPriorityKey fl
          ((claimableIds fl).dedup.filter fun fid =>
            fid ∉ (milestoneGroupsGo fl (sortedMilestones fl) []).2) :=
        (horph x).mpr ⟨hcl, hnone⟩
      have hoe : ¬ (sortByPriorityKey fl
          ((claimableIds fl).dedup.filter fun fid =>
            fid ∉ (milestoneGroupsGo fl (sortedMilestones fl) []).2)).isEmpty := by
        rw [List.isEmpty_iff]
        exact List.ne_nil_of_mem hx
      exact ⟨_, if_neg hoe, hx⟩

/-- A single pending review feature with no dependencies: it is claimable,
is its own (only) incomplete review milestone, and reaches nothing. -/
def exReviewOnly : FeatureList :=
  ⟨[{ id := "r1", feature_type := .Review, scope := "s", description := "d",
      verify := "v", depends_on := [], priority := 1, status := .Pending,
      claimed_by := none, blocked_reason := none, context_hints := [] }]⟩

/-- C5 counterexample: `milestone_claimable` does *not* produce one group
per incomplete `Review` task: on `exReviewOnly` the only incomplete review
task `"r1"` gets no group (its frontier is empty, so it is skipped), and
the whole output is the orphan group. -/
theorem milestone_C5_counterexample :
    ¬ (∀ (fl : FeatureList), ∀ ms ∈ fl.features,
        ms.feature_type = .Review → ms.status ≠ .Done →
        ∃ g, (ms.id, g) ∈ milestoneClaimable fl) := by
  intro h
  obtain ⟨g, hg⟩ := h exReviewOnly
    { id := "r1", feature_type := .Review, scope := "s", description := "d",
      verify := "v", depends_on := [], priority := 1, status := .Pending,
      claimed_by := none, blocked_reason := none, context_hints := [] }
    (List.mem_cons_self _ _) rfl (by decide)
  rw [show milestoneClaimable exReviewOnly = [("", ["r1"])] from by decide] at hg
  rcases List.mem_cons.mp hg with heq | hg2
  · injection heq with h1 _
    exact absurd h1 (by decide)
  · simp at hg2

/-- C6 witness: the layout theorem applied to 5 panes on an 80×24 area. -/
theorem grid_layout_spec_witness :
    ((Finset.range 5).biUnion
      (fun i => rectPts (gridRect ⟨0, 0, 80, 24⟩ i 5)) = rectPts ⟨0, 0, 80, 24⟩) ∧
    (∀ i j, i < j → j < 5 →
      Disjoint (rectPts (gridRect ⟨0, 0, 80, 24⟩ i 5))
        (rectPts (gridRect ⟨0, 0, 80, 24⟩ j 5))) ∧
    (5 ≤ 3 → gridDims 5 = (5, 1)) ∧
    (4 ≤ 5 → gridDims 5 = ((5 + 1) / 2, 2)) ∧
    (5 % 2 = 1 → 4 ≤ 5 →
      (gridRect ⟨0, 0, 80, 24⟩ (5 - 1) 5).width = (⟨0, 0, 80, 24⟩ : Rect).width ∧
      (gridRect ⟨0, 0, 80, 24⟩ (5 - 1) 5).x = (⟨0, 0, 80, 24⟩ : Rect).x) :=
  grid_layout_spec ⟨0, 0, 80, 24⟩ 5 (by decide) (by decide) (by decide) (by decide)

end Forge
